import Mathlib

/-!
Verification of the adaptive scheduling and quota-inference core of the
Gtest-Quiz repository.  The Lean definitions below are a shallow embedding
of the Python source files `gtest_quiz/quota.py`, `gtest_quiz/meta.py`,
`gtest_quiz/history.py` and `app.py`: Python dicts holding typed records
become Lean structures, JSON objects keyed by strings become association
lists, Python `int` becomes `Int`, float ratios are modelled exactly as
rationals, the clock is passed in as an explicit string argument, and the
nondeterminism of `random.choice` is modelled by an explicit index
parameter reduced modulo the pool size.
-/

/-- The empty Python string, used for truthiness tests of the source. -/
def emptyStr : String := ""

/-!
## Quota embedding — `gtest_quiz/quota.py`

`QuotaManager` wraps the `quota_estimate` record of `meta.json`; its four
fields (with the defaults installed by `setdefault` in `__init__`) are
embedded as the structure `QuotaState`.
-/

/-- The `quota_estimate` record wrapped by `QuotaManager` (quota.py lines 44-50). -/
structure QuotaState where
  total_used_tokens : Int
  estimated_limit_tokens : Option Int
  last_429_at : Option String
  last_error : Option String
deriving DecidableEq

/-- The defaults installed by `setdefault` on an empty `quota_estimate` record. -/
def defaultQuotaEstimate : QuotaState :=
  { total_used_tokens := 0
  , estimated_limit_tokens := none
  , last_429_at := none
  , last_error := none }

/-- `QuotaManager.add_usage` (quota.py lines 55-64): a negative argument is
clamped to zero before being added to the accumulator. -/
def add_usage (used_tokens : Int) (q : QuotaState) : QuotaState :=
  let u := if used_tokens < 0 then 0 else used_tokens
  { q with total_used_tokens := q.total_used_tokens + u }

/-- `QuotaManager.register_429` (quota.py lines 69-89).  The method stamps
`last_429_at` with the current UTC time (passed here as `now_iso`), stores a
truthy message into `last_error`, and raises `estimated_limit_tokens` to the
current `total_used_tokens` when the limit is still `None` or smaller than
the current usage; otherwise the limit is kept.  The limit update reads only
fields the two preceding writes do not touch, so it is computed from `q`
directly. -/
def register_429 (now_iso : String) (message : Option String) (q : QuotaState) : QuotaState :=
  let newLastError :=
    match message with
    | none => q.last_error
    | some msgStr => if msgStr = emptyStr then q.last_error else some msgStr
  let newLimit :=
    match q.estimated_limit_tokens with
    | none => some q.total_used_tokens
    | some lv => if lv < q.total_used_tokens then some q.total_used_tokens else some lv
  { q with last_429_at := some now_iso
         , last_error := newLastError
         , estimated_limit_tokens := newLimit }

/-- `QuotaManager.register_error` (quota.py lines 94-98): records the message
without touching the estimated limit. -/
def register_error (message : String) (q : QuotaState) : QuotaState :=
  { q with last_error := some message }

/-- The value `max(limit - total, 0) / float(limit)` computed by
`get_remaining_ratio`, as an exact rational. -/
def ratioVal (lim total : Int) : ℚ :=
  ((max (lim - total) 0 : Int) : ℚ) / ((lim : Int) : ℚ)

/-- `QuotaManager.get_remaining_ratio` (quota.py lines 114-126): `None` when
the limit is unset or not positive, else the clamped remaining fraction. -/
def get_remaining_ratio (q : QuotaState) : Option ℚ :=
  match q.estimated_limit_tokens with
  | none => none
  | some lim => if lim ≤ 0 then none else some (ratioVal lim q.total_used_tokens)

/-- The three mutators of `QuotaManager` as an operation alphabet, so that
properties can be stated over arbitrary call sequences. -/
inductive QuotaOp where
  | add_usage_op (n : Int)
  | register_429_op (now_iso : String) (message : Option String)
  | register_error_op (message : String)
deriving DecidableEq

/-- Apply one `QuotaManager` mutator call. -/
def applyQuotaOp (q : QuotaState) : QuotaOp → QuotaState
  | .add_usage_op n => add_usage n q
  | .register_429_op now_iso message => register_429 now_iso message q
  | .register_error_op message => register_error message q

/-- Apply a sequence of `QuotaManager` mutator calls, oldest first. -/
def runQuotaOps (q : QuotaState) (ops : List QuotaOp) : QuotaState :=
  ops.foldl applyQuotaOp q

/-- Whether an operation is a `register_429` call. -/
def isRegister429 : QuotaOp → Bool
  | .register_429_op _ _ => true
  | _ => false

/-! ### Helper lemmas about the quota operations -/

theorem register_429_limit (now_iso : String) (message : Option String) (q : QuotaState) :
    (register_429 now_iso message q).estimated_limit_tokens =
      match q.estimated_limit_tokens with
      | none => some q.total_used_tokens
      | some lv => if lv < q.total_used_tokens then some q.total_used_tokens else some lv := by
  cases message with
  | none => rfl
  | some msgStr => rfl

theorem add_usage_limit (n : Int) (q : QuotaState) :
    (add_usage n q).estimated_limit_tokens = q.estimated_limit_tokens := rfl

theorem register_error_limit (message : String) (q : QuotaState) :
    (register_error message q).estimated_limit_tokens = q.estimated_limit_tokens := rfl

theorem applyQuotaOp_limit_mono (q : QuotaState) (op : QuotaOp) (l : Int)
    (h : q.estimated_limit_tokens = some l) :
    ∃ l', (applyQuotaOp q op).estimated_limit_tokens = some l' ∧ l ≤ l' := by
  cases op with
  | add_usage_op n => exact ⟨l, by simpa [applyQuotaOp, add_usage_limit] using h, le_refl l⟩
  | register_error_op message =>
      exact ⟨l, by simpa [applyQuotaOp, register_error_limit] using h, le_refl l⟩
  | register_429_op now_iso message =>
      rw [applyQuotaOp, register_429_limit, h]
      by_cases hlt : l < q.total_used_tokens
      · exact ⟨q.total_used_tokens, by simp [hlt], le_of_lt hlt⟩
      · exact ⟨l, by simp [hlt], le_refl l⟩

theorem runQuotaOps_limit_mono (ops : List QuotaOp) :
    ∀ (q : QuotaState) (l : Int), q.estimated_limit_tokens = some l →
      ∃ l', (runQuotaOps q ops).estimated_limit_tokens = some l' ∧ l ≤ l' := by
  induction ops with
  | nil => exact fun q l h => ⟨l, h, le_refl l⟩
  | cons op rest ih =>
      intro q l h
      obtain ⟨l1, h1, hle1⟩ := applyQuotaOp_limit_mono q op l h
      obtain ⟨l', h', hle'⟩ := ih (applyQuotaOp q op) l1 h1
      exact ⟨l', h', le_trans hle1 hle'⟩

theorem applyQuotaOp_limit_none (q : QuotaState) (op : QuotaOp)
    (hop : isRegister429 op = false) (h : q.estimated_limit_tokens = none) :
    (applyQuotaOp q op).estimated_limit_tokens = none := by
  cases op with
  | add_usage_op n => simpa [applyQuotaOp, add_usage_limit] using h
  | register_error_op message => simpa [applyQuotaOp, register_error_limit] using h
  | register_429_op now_iso message => simp [isRegister429] at hop

theorem runQuotaOps_limit_none (ops : List QuotaOp) :
    ∀ (q : QuotaState), (∀ op ∈ ops, isRegister429 op = false) →
      q.estimated_limit_tokens = none →
      (runQuotaOps q ops).estimated_limit_tokens = none := by
  induction ops with
  | nil => exact fun q _ h => h
  | cons op rest ih =>
      intro q hops h
      have h1 := applyQuotaOp_limit_none q op (hops op (List.mem_cons_self op rest)) h
      exact ih (applyQuotaOp q op) (fun o ho => hops o (List.mem_cons_of_mem op ho)) h1

/-! ### Claim C1 -/

/-- Claim C1: across any sequence of `register_429`, `add_usage` and
`register_error` calls, the estimated ceiling, once non-null, never
decreases; and a `register_429` call raises the ceiling to the current
`total_used_tokens` exactly when the ceiling is null or the current usage
exceeds it, leaving it unchanged otherwise. -/
theorem quota_ceiling_monotone :
    (∀ (q : QuotaState) (l : Int) (ops : List QuotaOp),
        q.estimated_limit_tokens = some l →
        ∃ l', (runQuotaOps q ops).estimated_limit_tokens = some l' ∧ l ≤ l')
    ∧ (∀ (q : QuotaState) (now_iso : String) (message : Option String),
        (q.estimated_limit_tokens = none →
          (register_429 now_iso message q).estimated_limit_tokens =
            some q.total_used_tokens)
        ∧ (∀ lv, q.estimated_limit_tokens = some lv → lv < q.total_used_tokens →
            (register_429 now_iso message q).estimated_limit_tokens =
              some q.total_used_tokens)
        ∧ (∀ lv, q.estimated_limit_tokens = some lv → q.total_used_tokens ≤ lv →
            (register_429 now_iso message q).estimated_limit_tokens = some lv)) := by
  constructor
  · exact fun q l ops h => runQuotaOps_limit_mono ops q l h
  · intro q now_iso message
    refine ⟨fun h => ?_, fun lv h hlt => ?_, fun lv h hle => ?_⟩
    · rw [register_429_limit, h]
    · rw [register_429_limit, h]
      simp [hlt]
    · rw [register_429_limit, h]
      simp [not_lt_of_le hle]

/-- A string used as a stand-in timestamp in concrete witnesses. -/
def tsW : String := "2026-01-01T00:00:00Z"

/-- Witness for C1: a concrete state with ceiling 3 keeps a ceiling of at
least 3 across a concrete call sequence, and the three `register_429` cases
are realised at concrete states. -/
theorem quota_ceiling_monotone_witness :
    (∃ l', (runQuotaOps ⟨7, some 3, none, none⟩
        [QuotaOp.add_usage_op 5, QuotaOp.register_429_op tsW none]).estimated_limit_tokens
        = some l' ∧ (3 : Int) ≤ l')
    ∧ (register_429 tsW none ⟨0, none, none, none⟩).estimated_limit_tokens = some 0
    ∧ (register_429 tsW none ⟨9, some 4, none, none⟩).estimated_limit_tokens = some 9
    ∧ (register_429 tsW none ⟨3, some 9, none, none⟩).estimated_limit_tokens = some 9 :=
  ⟨quota_ceiling_monotone.1 ⟨7, some 3, none, none⟩ 3
      [QuotaOp.add_usage_op 5, QuotaOp.register_429_op tsW none] rfl,
   (quota_ceiling_monotone.2 ⟨0, none, none, none⟩ tsW none).1 rfl,
   (quota_ceiling_monotone.2 ⟨9, some 4, none, none⟩ tsW none).2.1 4 rfl (by decide),
   (quota_ceiling_monotone.2 ⟨3, some 9, none, none⟩ tsW none).2.2 9 rfl (by decide)⟩

/-! ### Claim C10 -/

/-- Claim C10: `add_usage` is total over arbitrary integer arguments: a
negative argument is treated as zero and leaves the state unchanged, the
accumulator never decreases, and over any call sequence `total_used_tokens`
is non-decreasing. -/
theorem add_usage_total_monotone :
    (∀ (q : QuotaState) (n : Int),
        q.total_used_tokens ≤ (add_usage n q).total_used_tokens
        ∧ (n < 0 → add_usage n q = q))
    ∧ (∀ (q : QuotaState) (ns : List Int),
        q.total_used_tokens ≤ (ns.foldl (fun s n => add_usage n s) q).total_used_tokens) := by
  have hstep : ∀ (q : QuotaState) (n : Int),
      q.total_used_tokens ≤ (add_usage n q).total_used_tokens := by
    intro q n
    unfold add_usage
    by_cases h : n < 0
    · simp [h]
    · simp only [h, if_false]
      show q.total_used_tokens ≤ q.total_used_tokens + n
      have : (0 : Int) ≤ n := le_of_not_lt h
      omega
  constructor
  · intro q n
    refine ⟨hstep q n, fun hneg => ?_⟩
    unfold add_usage
    cases q with
    | mk t l a e => simp [hneg]
  · intro q ns
    induction ns generalizing q with
    | nil => exact le_refl _
    | cons n rest ih =>
        exact le_trans (hstep q n) (ih (add_usage n q))

/-- Witness for C10: at the concrete argument `-3` the accumulator is left
unchanged. -/
theorem add_usage_total_monotone_witness :
    add_usage (-3) defaultQuotaEstimate = defaultQuotaEstimate
    ∧ defaultQuotaEstimate.total_used_tokens
        ≤ (add_usage (-3) defaultQuotaEstimate).total_used_tokens :=
  ⟨(add_usage_total_monotone.1 defaultQuotaEstimate (-3)).2 (by decide),
   (add_usage_total_monotone.1 defaultQuotaEstimate (-3)).1⟩

/-! ### Claim C2 -/

theorem ratioVal_nonneg (lim total : Int) (hlim : 0 < lim) : 0 ≤ ratioVal lim total := by
  unfold ratioVal
  apply div_nonneg
  · exact_mod_cast le_max_right (lim - total) 0
  · exact_mod_cast le_of_lt hlim

theorem ratioVal_le_one (lim total : Int) (hlim : 0 < lim) (htotal : 0 ≤ total) :
    ratioVal lim total ≤ 1 := by
  unfold ratioVal
  rw [div_le_one (by exact_mod_cast hlim)]
  have h : max (lim - total) 0 ≤ lim := by omega
  exact_mod_cast h

theorem ratioVal_strict_anti (lim t1 t2 : Int) (hlim : 0 < lim) (h12 : t1 < t2)
    (h1 : t1 < lim) : ratioVal lim t2 < ratioVal lim t1 := by
  unfold ratioVal
  have hnum : max (lim - t2) 0 < max (lim - t1) 0 := by omega
  have hnumQ : ((max (lim - t2) 0 : Int) : ℚ) < ((max (lim - t1) 0 : Int) : ℚ) := by
    exact_mod_cast hnum
  have hlimQ : (0 : ℚ) < ((lim : Int) : ℚ) := by exact_mod_cast hlim
  exact (div_lt_div_iff_of_pos_right hlimQ).mpr hnumQ

theorem ratioVal_saturated (lim t : Int) (ht : lim ≤ t) : ratioVal lim t = 0 := by
  unfold ratioVal
  have h : max (lim - t) 0 = 0 := by omega
  rw [h]
  simp

/-- Claim C2 (amended): `get_remaining_ratio` returns `None` as long as no
`register_429` call has occurred from the initial state, and also whenever
the learned ceiling is not positive (in particular right after a
`register_429` at `total_used_tokens = 0`); once the ceiling `L` is
positive the ratio is `max(L - used, 0) / L`, which lies in `[0,1]` for
non-negative usage, strictly decreases as usage increases while
`used < L`, and is constantly `0` once `used ≥ L`. -/
theorem remaining_ratio_amended :
    (∀ ops : List QuotaOp, (∀ op ∈ ops, isRegister429 op = false) →
        get_remaining_ratio (runQuotaOps defaultQuotaEstimate ops) = none)
    ∧ (∀ q : QuotaState, q.estimated_limit_tokens = none → get_remaining_ratio q = none)
    ∧ (∀ (q : QuotaState) (lim : Int), q.estimated_limit_tokens = some lim → lim ≤ 0 →
        get_remaining_ratio q = none)
    ∧ (∀ (q : QuotaState) (lim : Int), q.estimated_limit_tokens = some lim → 0 < lim →
        get_remaining_ratio q = some (ratioVal lim q.total_used_tokens)
        ∧ 0 ≤ ratioVal lim q.total_used_tokens
        ∧ (0 ≤ q.total_used_tokens → ratioVal lim q.total_used_tokens ≤ 1))
    ∧ (∀ lim t1 t2 : Int, 0 < lim → t1 < t2 → t1 < lim →
        ratioVal lim t2 < ratioVal lim t1)
    ∧ (∀ lim t : Int, lim ≤ t → ratioVal lim t = 0) := by
  refine ⟨?_, ?_, ?_, ?_, ?_, ?_⟩
  · intro ops hops
    have hnone : (runQuotaOps defaultQuotaEstimate ops).estimated_limit_tokens = none :=
      runQuotaOps_limit_none ops defaultQuotaEstimate hops rfl
    unfold get_remaining_ratio
    rw [hnone]
  · intro q h
    unfold get_remaining_ratio
    rw [h]
  · intro q lim h hle
    unfold get_remaining_ratio
    rw [h]
    simp [hle]
  · intro q lim h hpos
    refine ⟨?_, ratioVal_nonneg lim q.total_used_tokens hpos,
      fun ht => ratioVal_le_one lim q.total_used_tokens hpos ht⟩
    unfold get_remaining_ratio
    rw [h]
    simp [not_le_of_lt hpos]
  · exact fun lim t1 t2 h1 h2 h3 => ratioVal_strict_anti lim t1 t2 h1 h2 h3
  · exact fun lim t h => ratioVal_saturated lim t h

/-- Counterexample to Claim C2 as stated: a `register_429` on the fresh
quota state sets the ceiling to `0`, after which `get_remaining_ratio`
still returns `None` rather than a value in `[0,1]`; moreover, after a
`register_429` at usage 10 the ratio is `0` and a further usage increase to
20 leaves it at `0`, so the ratio does not strictly decrease as usage
increases with the ceiling held fixed. -/
theorem remaining_ratio_counterexample :
    get_remaining_ratio (applyQuotaOp defaultQuotaEstimate (QuotaOp.register_429_op tsW none))
      = none
    ∧ (runQuotaOps defaultQuotaEstimate
        [QuotaOp.add_usage_op 10, QuotaOp.register_429_op tsW none]).total_used_tokens = 10
    ∧ (runQuotaOps defaultQuotaEstimate
        [QuotaOp.add_usage_op 10, QuotaOp.register_429_op tsW none]).estimated_limit_tokens
        = some 10
    ∧ get_remaining_ratio (runQuotaOps defaultQuotaEstimate
        [QuotaOp.add_usage_op 10, QuotaOp.register_429_op tsW none]) = some 0
    ∧ (runQuotaOps defaultQuotaEstimate
        [QuotaOp.add_usage_op 10, QuotaOp.register_429_op tsW none,
         QuotaOp.add_usage_op 10]).total_used_tokens = 20
    ∧ (runQuotaOps defaultQuotaEstimate
        [QuotaOp.add_usage_op 10, QuotaOp.register_429_op tsW none,
         QuotaOp.add_usage_op 10]).estimated_limit_tokens = some 10
    ∧ get_remaining_ratio (runQuotaOps defaultQuotaEstimate
        [QuotaOp.add_usage_op 10, QuotaOp.register_429_op tsW none,
         QuotaOp.add_usage_op 10]) = some 0 := by
  refine ⟨rfl, rfl, rfl, ?_, rfl, rfl, ?_⟩
  · show some (ratioVal 10 10) = some 0
    rw [ratioVal_saturated 10 10 (le_refl 10)]
  · show some (ratioVal 10 20) = some 0
    rw [ratioVal_saturated 10 20 (by decide)]

/-- Witness for the amended C2 at concrete inputs: a 429-free call sequence
keeps the ratio unknown, a positive ceiling yields the exact clamped value,
and the strict-decrease and saturation cases are realised at `L = 10`. -/
theorem remaining_ratio_amended_witness :
    get_remaining_ratio (runQuotaOps defaultQuotaEstimate [QuotaOp.add_usage_op 5]) = none
    ∧ get_remaining_ratio ⟨4, some 10, none, none⟩ = some (ratioVal 10 4)
    ∧ ratioVal 10 7 < ratioVal 10 4
    ∧ ratioVal 10 12 = 0 :=
  ⟨remaining_ratio_amended.1 [QuotaOp.add_usage_op 5] (by decide),
   (remaining_ratio_amended.2.2.2.1 ⟨4, some 10, none, none⟩ 10 rfl (by decide)).1,
   remaining_ratio_amended.2.2.2.2.1 10 4 7 (by decide) (by decide) (by decide),
   remaining_ratio_amended.2.2.2.2.2 10 12 (by decide)⟩

/-!
## Remote-attempt gate — `app.py`

`can_use_online` consults the process environment (is the `google.generativeai`
package importable, is `GEMINI_API_KEY` set), the quota state, and the
optional `[quota].near_limit_ratio` entry of `config.toml`.  These external
inputs are gathered into `AppEnv`; a config value that is absent or fails
`float()` conversion is modelled as `none`.
-/

/-- The fields read off the parsed JSON object in `generate_online_question`
(app.py lines 316-320); a missing key is `none`. -/
structure GenData where
  question : Option String
  choices : Option (List String)
  correct_index : Option Int
  explanation : Option String
  difficulty : Option String
deriving DecidableEq

/-- The outcome of one `model.generate_content` call: either an exception
with its message, or a response whose stripped text parsed into a JSON
object (the object's fields of interest, each possibly missing). -/
inductive GenOutcome where
  | exn (msg : String)
  | ok (text : String) (data : GenData)
deriving DecidableEq

/-- External inputs of the online-generation path of `app.py`. -/
structure AppEnv where
  hasGemini : Bool
  apiKeyPresent : Bool
  cfgNearLimitRatio : Option ℚ
  availableModels : List String
  preferredModel : Option String
  genOutcome : String → GenOutcome

/-- The effective `near_ratio` of `can_use_online` (app.py lines 244-252):
the configured value when present and convertible, else `0.9`. -/
def near_limit_ratio_of (cfg : Option ℚ) : ℚ := cfg.getD (9 / 10)

/-- `can_use_online` (app.py lines 226-255). -/
def can_use_online (env : AppEnv) (q : QuotaState) : Bool :=
  if env.hasGemini = false then false
  else if env.apiKeyPresent = false then false
  else
    match get_remaining_ratio q with
    | none => true
    | some remaining => decide (1 - near_limit_ratio_of env.cfgNearLimitRatio < remaining)

/-! ### Claim C3 -/

/-- Claim C3: with the remote collaborator configured (library importable
and `GEMINI_API_KEY` present), `can_use_online` returns `true` whenever
`get_remaining_ratio` is `None` — at every usage level — and otherwise
returns `true` iff the remaining ratio exceeds `1 - near_limit_ratio`,
where the threshold defaults to `0.9`. -/
theorem may_attempt_remote_gate (env : AppEnv) (q : QuotaState)
    (hg : env.hasGemini = true) (hk : env.apiKeyPresent = true) :
    (get_remaining_ratio q = none → can_use_online env q = true)
    ∧ (q.estimated_limit_tokens = none →
        ∀ t : Int, can_use_online env { q with total_used_tokens := t } = true)
    ∧ (∀ r : ℚ, get_remaining_ratio q = some r →
        (can_use_online env q = true ↔ 1 - near_limit_ratio_of env.cfgNearLimitRatio < r))
    ∧ near_limit_ratio_of none = 9 / 10 := by
  refine ⟨?_, ?_, ?_, rfl⟩
  · intro h
    unfold can_use_online
    rw [hg, hk, h]
    simp
  · intro h t
    have hr : get_remaining_ratio { q with total_used_tokens := t } = none := by
      unfold get_remaining_ratio
      have : ({ q with total_used_tokens := t } : QuotaState).estimated_limit_tokens = none := h
      rw [this]
    unfold can_use_online
    rw [hg, hk, hr]
    simp
  · intro r h
    unfold can_use_online
    rw [hg, hk, h]
    simp

/-- Witness for C3: a configured environment with unknown quota permits the
remote attempt, even at usage 1000. -/
theorem may_attempt_remote_gate_witness :
    can_use_online ⟨true, true, none, [], none, fun msg => GenOutcome.exn msg⟩
        ⟨1000, none, none, none⟩ = true :=
  (may_attempt_remote_gate ⟨true, true, none, [], none, fun msg => GenOutcome.exn msg⟩
    ⟨1000, none, none, none⟩ rfl rfl).1 rfl

/-!
## Ledger embedding — `gtest_quiz/meta.py` and `gtest_quiz/history.py`

`meta.json` is a JSON object; its typed shape is embedded as the structure
`Meta`, with the string-keyed `chapter_stats` object as an association
list.  The `source` argument of `record_usage` has the Python type
`Literal["online", "offline"]`, embedded as the inductive `Source`.
-/

/-- A `chapter_stats` entry (meta.py lines 168-172). -/
structure ChapterStat where
  total_questions : Int
  online_questions : Int
  offline_questions : Int
deriving DecidableEq

/-- The global `usage` counters (meta.py lines 84-88). -/
structure Usage where
  total_questions : Int
  online_questions : Int
  offline_questions : Int
deriving DecidableEq

/-- One subchapter record of the syllabus tree `meta["chapters"]`; its
`label` is `none` when the key is missing or not a string. -/
structure Subchapter where
  label : Option String
deriving DecidableEq

/-- One top-level group of the syllabus tree, with its own optional label
and its subchapters in insertion order. -/
structure ChapterGroup where
  label : Option String
  subchapters : List Subchapter
deriving DecidableEq

/-- The typed shape of `meta.json` handled by `MetaManager`. -/
structure Meta where
  version : Int
  created_at : String
  updated_at : String
  usage : Usage
  quota_estimate : QuotaState
  chapter_stats : List (String × ChapterStat)
  last_chapter_id : Option String
  chapters : List ChapterGroup
deriving DecidableEq

/-- The `Literal["online", "offline"]` type `UsageSource` of meta.py. -/
inductive Source where
  | online
  | offline
deriving DecidableEq

/-- Lookup of a key in a string-keyed JSON object embedded as an
association list (first match, as in a Python dict with unique keys). -/
def findStat : List (String × ChapterStat) → String → Option ChapterStat
  | [], _ => none
  | p :: rest, c => if p.1 = c then some p.2 else findStat rest c

/-- The helper `total_for` of `choose_next_chapter` (meta.py lines 246-250):
a chapter's `total_questions`, or `0` when the chapter has no entry. -/
def total_for (m : Meta) (c : String) : Int :=
  match findStat m.chapter_stats c with
  | some st => st.total_questions
  | none => 0

/-- `MetaManager.get_all_chapter_labels` (meta.py lines 186-208): all
subchapter labels of the syllabus tree, in order, skipping non-string
labels. -/
def get_all_chapter_labels (m : Meta) : List String :=
  (m.chapters.map (fun g => g.subchapters.filterMap (fun sv => sv.label))).flatten

/-- The increment applied to a `chapter_stats` entry by `record_usage`
(meta.py lines 174-178). -/
def bumpStat (st : ChapterStat) (source : Source) : ChapterStat :=
  { total_questions := st.total_questions + 1
  , online_questions := st.online_questions + (match source with | .online => 1 | .offline => 0)
  , offline_questions := st.offline_questions + (match source with | .offline => 1 | .online => 0) }

/-- `MetaManager.record_usage` (meta.py lines 149-181): bump the global
`usage` counters, create the chapter's entry if missing, bump it, and
record the chapter as `last_chapter_id`. -/
def record_usage (m : Meta) (chapter_id : String) (source : Source) : Meta :=
  let u0 := m.usage
  let u1 : Usage :=
    { total_questions := u0.total_questions + 1
    , online_questions := u0.online_questions + (match source with | .online => 1 | .offline => 0)
    , offline_questions :=
        u0.offline_questions + (match source with | .offline => 1 | .online => 0) }
  let stats0 : List (String × ChapterStat) :=
    match findStat m.chapter_stats chapter_id with
    | some _ => m.chapter_stats
    | none => m.chapter_stats ++ [(chapter_id, (⟨0, 0, 0⟩ : ChapterStat))]
  let stats1 := stats0.map (fun p => if p.1 = chapter_id then (p.1, bumpStat p.2 source) else p)
  { m with usage := u1, chapter_stats := stats1, last_chapter_id := some chapter_id }

/-- The candidate-list construction of `choose_next_chapter` (meta.py lines
233-239): syllabus labels restricted to the available chapters, then the
available chapters not already present appended in order. -/
def dedupAppend : List String → List String → List String
  | acc, [] => acc
  | acc, cid :: rest => dedupAppend (if cid ∈ acc then acc else acc ++ [cid]) rest

/-- The full candidate list of `choose_next_chapter` for a ledger state and
an availability list. -/
def candidatesOf (m : Meta) (available : List String) : List String :=
  dedupAppend ((get_all_chapter_labels m).filter (fun c => decide (c ∈ available))) available

/-- Python's `min` over a list of ints, `none` on the empty list. -/
def minList : List Int → Option Int
  | [] => none
  | x :: xs =>
    match minList xs with
    | none => some x
    | some v => some (min x v)

/-- The minimum `total_questions` over the candidates (meta.py line 256). -/
def minTotalOf (m : Meta) (available : List String) : Option Int :=
  minList ((candidatesOf m available).map (total_for m))

/-- The least-used candidate list (meta.py line 259). -/
def leastUsedOf (m : Meta) (available : List String) : List String :=
  match minTotalOf m available with
  | none => []
  | some mt => (candidatesOf m available).filter (fun c => decide (total_for m c = mt))

/-- The final pool `random.choice` draws from (meta.py lines 261-267): the
least-used list, with `last_chapter_id` removed when repeat-avoidance is on,
the last chapter is in the list, and the list has more than one element. -/
def poolOf (m : Meta) (available : List String) (avoid_same_as_last : Bool) : List String :=
  match m.last_chapter_id with
  | none => leastUsedOf m available
  | some lc =>
      if avoid_same_as_last = true ∧ lc ∈ leastUsedOf m available
          ∧ 1 < (leastUsedOf m available).length
      then (leastUsedOf m available).filter (fun c => decide (¬ c = lc))
      else leastUsedOf m available

/-- `MetaManager.choose_next_chapter` (meta.py lines 210-269).  The final
`random.choice` over the non-empty pool is modelled by the explicit index
`pick`, reduced modulo the pool length. -/
def choose_next_chapter (m : Meta) (available : List String)
    (avoid_same_as_last : Bool) (pick : Nat) : Option String :=
  if available.isEmpty then none
  else if (candidatesOf m available).isEmpty then none
  else
    match minTotalOf m available with
    | none => none
    | some _ =>
        if (poolOf m available avoid_same_as_last).isEmpty then none
        else (poolOf m available avoid_same_as_last).get?
          (pick % (poolOf m available avoid_same_as_last).length)

/-- One quiz turn of the claim C5 loop: choose a chapter with
repeat-avoidance on (the app.py call site uses the default
`avoid_same_as_last=True`), then record the chosen chapter.  Turns whose
choice is `None` record nothing. -/
def runQuiz (available : List String) (m : Meta) : List (Nat × Source) → Meta × List String
  | [] => (m, [])
  | (pick, source) :: rest =>
      match choose_next_chapter m available true pick with
      | none => runQuiz available m rest
      | some c =>
          let r := runQuiz available (record_usage m c source) rest
          (r.1, c :: r.2)

/-- `HistoryManager.record_question` (history.py lines 53-88), restricted to
its effect on the `usage` counters (the in-memory session history does not
participate in any claim): bump `total_questions` and the counter of the
given mode. -/
def record_question (u : Usage) (mode : Source) : Usage :=
  { total_questions := u.total_questions + 1
  , online_questions := u.online_questions + (match mode with | .online => 1 | .offline => 0)
  , offline_questions := u.offline_questions + (match mode with | .offline => 1 | .online => 0) }

/-!
## Loading — `MetaManager.load` and `_ensure_structure`

`load` reads `bank/meta.json`.  A present file is handed to `json.load`,
whose result (for a well-formed store) is a JSON object with any subset of
the expected keys; `_ensure_structure` then installs defaults for the
missing ones.  The possible outcomes of the read are embedded as
`LoadOutcome`: the file may be absent, present but unparseable (in which
case `json.load` raises `json.JSONDecodeError`), or parsed.  The clock is
the explicit `now` argument.
-/

/-- A parsed `meta.json` object before `_ensure_structure`: every expected
key may be missing.  Keys that may be present with the value `null` are
doubly optional. -/
structure RawMeta where
  version : Option Int
  created_at : Option String
  updated_at : Option String
  usage_total_questions : Option Int
  usage_online_questions : Option Int
  usage_offline_questions : Option Int
  quota_total_used_tokens : Option Int
  quota_estimated_limit_tokens : Option (Option Int)
  quota_last_429_at : Option (Option String)
  quota_last_error : Option (Option String)
  chapter_stats : Option (List (String × ChapterStat))
  last_chapter_id : Option (Option String)
  chapters : Option (List ChapterGroup)

/-- `MetaManager._ensure_structure` (meta.py lines 118-144) together with
the `setdefault` calls of `QuotaManager.__init__`: install every default
the source installs on a freshly parsed object. -/
def ensure_structure (raw : RawMeta) (now : String) : Meta :=
  { version := raw.version.getD 1
  , created_at := raw.created_at.getD now
  , updated_at := raw.updated_at.getD now
  , usage :=
      { total_questions := raw.usage_total_questions.getD 0
      , online_questions := raw.usage_online_questions.getD 0
      , offline_questions := raw.usage_offline_questions.getD 0 }
  , quota_estimate :=
      { total_used_tokens := raw.quota_total_used_tokens.getD 0
      , estimated_limit_tokens := raw.quota_estimated_limit_tokens.getD none
      , last_429_at := raw.quota_last_429_at.getD none
      , last_error := raw.quota_last_error.getD none }
  , chapter_stats := raw.chapter_stats.getD []
  , last_chapter_id := raw.last_chapter_id.getD none
  , chapters := raw.chapters.getD [] }

/-- The fresh skeleton built by `load` when no file exists (meta.py lines
79-98). -/
def freshMeta (now : String) : Meta :=
  { version := 1
  , created_at := now
  , updated_at := now
  , usage := { total_questions := 0, online_questions := 0, offline_questions := 0 }
  , quota_estimate := defaultQuotaEstimate
  , chapter_stats := []
  , last_chapter_id := none
  , chapters := [] }

/-- The three possible outcomes of reading the backing store in `load`. -/
inductive LoadOutcome where
  | absent
  | corrupt
  | parsed (raw : RawMeta)

/-- The message of the `json.JSONDecodeError` CPython raises on content
that is not valid JSON. -/
def jsonDecodeErrorMsg : String := "Expecting value: line 1 column 1 (char 0)"

/-- `MetaManager.load` (meta.py lines 73-103).  When the file exists its
content goes through `json.load`, which raises on unparseable content —
there is no surrounding try/except, so the exception propagates to the
caller; this is embedded as `Except.error`.  A missing file yields the
fresh skeleton, and a parsed object goes through `_ensure_structure`. -/
def MetaManager.load (store : LoadOutcome) (now : String) : Except String Meta :=
  match store with
  | .absent => Except.ok (freshMeta now)
  | .corrupt => Except.error jsonDecodeErrorMsg
  | .parsed raw => Except.ok (ensure_structure raw now)

/-! ### Claim C6 -/

/-- Claim C6 (amended): `MetaManager.load` never fails the caller when the
backing store is absent or parseable — an absent store yields a freshly
initialized empty state (all counters zero, quota ceiling unknown), and a
parsed store is completed with defaults — but a store holding corrupt,
unparseable content makes `load` raise the `json.JSONDecodeError` of
`json.load` to the caller instead of treating the store as empty. -/
theorem load_fresh_or_raises :
    (∀ now : String, MetaManager.load LoadOutcome.absent now = Except.ok (freshMeta now))
    ∧ (∀ now : String,
        (freshMeta now).usage.total_questions = 0
        ∧ (freshMeta now).usage.online_questions = 0
        ∧ (freshMeta now).usage.offline_questions = 0
        ∧ (freshMeta now).quota_estimate.total_used_tokens = 0
        ∧ (freshMeta now).quota_estimate.estimated_limit_tokens = none
        ∧ (freshMeta now).chapter_stats = []
        ∧ (freshMeta now).last_chapter_id = none)
    ∧ (∀ (now : String) (raw : RawMeta),
        MetaManager.load (LoadOutcome.parsed raw) now = Except.ok (ensure_structure raw now))
    ∧ (∀ now : String,
        MetaManager.load LoadOutcome.corrupt now = Except.error jsonDecodeErrorMsg) :=
  ⟨fun _ => rfl, fun _ => ⟨rfl, rfl, rfl, rfl, rfl, rfl, rfl⟩, fun _ _ => rfl, fun _ => rfl⟩

/-- Counterexample to Claim C6 as stated: on a corrupt store `load` does
not return any snapshot at all — the JSON parse error escapes to the
caller, contradicting "never fails the caller; a corrupt store is treated
as empty". -/
theorem load_corrupt_counterexample :
    MetaManager.load LoadOutcome.corrupt tsW = Except.error jsonDecodeErrorMsg := rfl

/-! ### Claim C9 -/

theorem bumpStat_consistent (st : ChapterStat) (s : Source)
    (h : st.total_questions = st.online_questions + st.offline_questions) :
    (bumpStat st s).total_questions
      = (bumpStat st s).online_questions + (bumpStat st s).offline_questions := by
  cases s <;> simp [bumpStat] <;> omega

theorem record_usage_entries_consistent (m : Meta) (chapter_id : String) (source : Source)
    (h : ∀ p ∈ m.chapter_stats,
        p.2.total_questions = p.2.online_questions + p.2.offline_questions) :
    ∀ p ∈ (record_usage m chapter_id source).chapter_stats,
        p.2.total_questions = p.2.online_questions + p.2.offline_questions := by
  intro p hp
  unfold record_usage at hp
  simp only [List.mem_map] at hp
  obtain ⟨p0, hp0, hfp⟩ := hp
  have hz : ∀ q ∈ m.chapter_stats ++ [(chapter_id, (⟨0, 0, 0⟩ : ChapterStat))],
      q.2.total_questions = q.2.online_questions + q.2.offline_questions := by
    intro q hq
    rcases List.mem_append.mp hq with hql | hqr
    · exact h q hql
    · simp only [List.mem_singleton] at hqr
      subst hqr
      show (0 : Int) = 0 + 0
      omega
  have hp0' : p0.2.total_questions = p0.2.online_questions + p0.2.offline_questions := by
    rcases hfind : findStat m.chapter_stats chapter_id with _ | st
    · rw [hfind] at hp0
      exact hz p0 hp0
    · rw [hfind] at hp0
      exact h p0 hp0
  subst hfp
  by_cases hc : p0.1 = chapter_id
  · simpa [hc] using bumpStat_consistent p0.2 source hp0'
  · simpa [hc] using hp0'

theorem record_usage_usage_consistent (m : Meta) (chapter_id : String) (source : Source)
    (h : m.usage.total_questions = m.usage.online_questions + m.usage.offline_questions) :
    (record_usage m chapter_id source).usage.total_questions
      = (record_usage m chapter_id source).usage.online_questions
        + (record_usage m chapter_id source).usage.offline_questions := by
  cases source <;> simp [record_usage] <;> omega

/-- Claim C9: starting from the freshly initialized ledger, after any
sequence of `record_usage` calls with sources in `{online, offline}` the
global `usage` counters and every `chapter_stats` entry satisfy
`total_questions = online_questions + offline_questions`; the same
invariant holds for the `usage` counters under any sequence of
`HistoryManager.record_question` calls. -/
theorem usage_counter_consistency (now : String) (calls : List (String × Source))
    (modes : List Source) :
    ((calls.foldl (fun m p => record_usage m p.1 p.2) (freshMeta now)).usage.total_questions
      = (calls.foldl (fun m p => record_usage m p.1 p.2) (freshMeta now)).usage.online_questions
        + (calls.foldl (fun m p =>
            record_usage m p.1 p.2) (freshMeta now)).usage.offline_questions)
    ∧ (∀ p ∈ (calls.foldl (fun m p => record_usage m p.1 p.2) (freshMeta now)).chapter_stats,
        p.2.total_questions = p.2.online_questions + p.2.offline_questions)
    ∧ ((modes.foldl record_question ⟨0, 0, 0⟩).total_questions
      = (modes.foldl record_question ⟨0, 0, 0⟩).online_questions
        + (modes.foldl record_question ⟨0, 0, 0⟩).offline_questions) := by
  have hmain : ∀ (calls : List (String × Source)) (m : Meta),
      m.usage.total_questions = m.usage.online_questions + m.usage.offline_questions →
      (∀ p ∈ m.chapter_stats,
        p.2.total_questions = p.2.online_questions + p.2.offline_questions) →
      ((calls.foldl (fun m p => record_usage m p.1 p.2) m).usage.total_questions
        = (calls.foldl (fun m p => record_usage m p.1 p.2) m).usage.online_questions
          + (calls.foldl (fun m p => record_usage m p.1 p.2) m).usage.offline_questions)
      ∧ (∀ p ∈ (calls.foldl (fun m p => record_usage m p.1 p.2) m).chapter_stats,
          p.2.total_questions = p.2.online_questions + p.2.offline_questions) := by
    intro calls
    induction calls with
    | nil => exact fun m hu hs => ⟨hu, hs⟩
    | cons c rest ih =>
        intro m hu hs
        exact ih (record_usage m c.1 c.2)
          (record_usage_usage_consistent m c.1 c.2 hu)
          (record_usage_entries_consistent m c.1 c.2 hs)
  have hhist : ∀ (modes : List Source) (u : Usage),
      u.total_questions = u.online_questions + u.offline_questions →
      (modes.foldl record_question u).total_questions
        = (modes.foldl record_question u).online_questions
          + (modes.foldl record_question u).offline_questions := by
    intro modes
    induction modes with
    | nil => exact fun u hu => hu
    | cons mode rest ih =>
        intro u hu
        apply ih
        cases mode <;> simp [record_question] <;> omega
  obtain ⟨h1, h2⟩ := hmain calls (freshMeta now) rfl (by intro p hp; simp [freshMeta] at hp)
  exact ⟨h1, h2, hhist modes ⟨0, 0, 0⟩ rfl⟩

/-! ### Chooser lemmas -/

theorem mem_dedupAppend : ∀ (avail acc : List String) (c : String),
    c ∈ dedupAppend acc avail ↔ c ∈ acc ∨ c ∈ avail := by
  intro avail
  induction avail with
  | nil => intro acc c; simp [dedupAppend]
  | cons cid rest ih =>
      intro acc c
      show c ∈ dedupAppend (if cid ∈ acc then acc else acc ++ [cid]) rest ↔ _
      rw [ih]
      by_cases h : cid ∈ acc
      · by_cases hc : c = cid
        · subst hc; simp [h]
        · simp [h, hc]
      · by_cases hc : c = cid
        · subst hc; simp [h]
        · simp [h, hc, List.mem_append]

theorem mem_candidatesOf (m : Meta) (avail : List String) (c : String) :
    c ∈ candidatesOf m avail ↔ c ∈ avail := by
  unfold candidatesOf
  rw [mem_dedupAppend]
  simp only [List.mem_filter, decide_eq_true_eq]
  tauto

theorem candidatesOf_ne_nil (m : Meta) (avail : List String) (hne : avail ≠ []) :
    candidatesOf m avail ≠ [] := by
  cases avail with
  | nil => exact absurd rfl hne
  | cons a rest =>
      intro hcand
      have ha : a ∈ candidatesOf m (a :: rest) :=
        (mem_candidatesOf m (a :: rest) a).mpr (List.mem_cons_self a rest)
      rw [hcand] at ha
      exact (List.not_mem_nil a) ha

theorem minList_eq_none (l : List Int) : minList l = none ↔ l = [] := by
  cases l with
  | nil => simp [minList]
  | cons x xs =>
      simp only [minList]
      cases minList xs <;> simp

theorem minList_le : ∀ (l : List Int) (v : Int), minList l = some v → ∀ x ∈ l, v ≤ x := by
  intro l
  induction l with
  | nil => intro v hv; simp [minList] at hv
  | cons x xs ih =>
      intro v hv y hy
      simp only [minList] at hv
      cases hxs : minList xs with
      | none =>
          rw [hxs] at hv
          simp only [Option.some.injEq] at hv
          have hnil : xs = [] := (minList_eq_none xs).mp hxs
          subst hnil
          simp only [List.mem_singleton] at hy
          subst hy
          omega
      | some w =>
          rw [hxs] at hv
          simp only [Option.some.injEq] at hv
          rcases List.mem_cons.mp hy with hyx | hyxs
          · rw [hyx, ← hv]
            exact min_le_left _ _
          · have h1 : w ≤ y := ih w hxs y hyxs
            have h2 : v ≤ w := by rw [← hv]; exact min_le_right x w
            omega

theorem minList_mem : ∀ (l : List Int) (v : Int), minList l = some v → v ∈ l := by
  intro l
  induction l with
  | nil => intro v hv; simp [minList] at hv
  | cons x xs ih =>
      intro v hv
      simp only [minList] at hv
      cases hxs : minList xs with
      | none =>
          rw [hxs] at hv
          simp only [Option.some.injEq] at hv
          subst hv
          exact List.mem_cons_self x xs
      | some w =>
          rw [hxs] at hv
          simp only [Option.some.injEq] at hv
          rcases le_total x w with hle | hle
          · rw [← hv, min_eq_left hle]
            exact List.mem_cons_self x xs
          · rw [← hv, min_eq_right hle]
            exact List.mem_cons_of_mem x (ih w hxs)

theorem minList_isSome (l : List Int) (hne : l ≠ []) : ∃ v, minList l = some v := by
  cases h : minList l with
  | none => exact absurd ((minList_eq_none l).mp h) hne
  | some v => exact ⟨v, rfl⟩

theorem minTotalOf_isSome (m : Meta) (avail : List String) (hne : avail ≠ []) :
    ∃ mt, minTotalOf m avail = some mt := by
  apply minList_isSome
  intro hmap
  exact candidatesOf_ne_nil m avail hne (List.map_eq_nil_iff.mp hmap)

theorem minTotalOf_le (m : Meta) (avail : List String) (mt : Int)
    (hmt : minTotalOf m avail = some mt) : ∀ d ∈ avail, mt ≤ total_for m d := by
  intro d hd
  have hdc : d ∈ candidatesOf m avail := (mem_candidatesOf m avail d).mpr hd
  exact minList_le _ mt hmt (total_for m d) (List.mem_map_of_mem (total_for m) hdc)

theorem minTotalOf_achieved (m : Meta) (avail : List String) (mt : Int)
    (hmt : minTotalOf m avail = some mt) :
    ∃ c, c ∈ candidatesOf m avail ∧ total_for m c = mt := by
  have hmem := minList_mem _ mt hmt
  exact List.mem_map.mp hmem

theorem total_for_eq_min (m : Meta) (avail : List String) (mt : Int) (c : String)
    (hmt : minTotalOf m avail = some mt) (hc : c ∈ avail)
    (hmin : ∀ d ∈ avail, total_for m c ≤ total_for m d) : total_for m c = mt := by
  obtain ⟨e, he, het⟩ := minTotalOf_achieved m avail mt hmt
  have h1 : mt ≤ total_for m c := minTotalOf_le m avail mt hmt c hc
  have h2 : total_for m c ≤ total_for m e := hmin e ((mem_candidatesOf m avail e).mp he)
  omega

theorem mem_leastUsedOf (m : Meta) (avail : List String) (mt : Int) (c : String)
    (hmt : minTotalOf m avail = some mt) :
    c ∈ leastUsedOf m avail ↔ c ∈ candidatesOf m avail ∧ total_for m c = mt := by
  unfold leastUsedOf
  rw [hmt]
  simp [List.mem_filter]

theorem leastUsedOf_ne_nil (m : Meta) (avail : List String) (mt : Int)
    (hmt : minTotalOf m avail = some mt) : leastUsedOf m avail ≠ [] := by
  obtain ⟨e, he, het⟩ := minTotalOf_achieved m avail mt hmt
  have hmem : e ∈ leastUsedOf m avail := (mem_leastUsedOf m avail mt e hmt).mpr ⟨he, het⟩
  intro hnil
  rw [hnil] at hmem
  exact (List.not_mem_nil e) hmem

theorem pool_subset (m : Meta) (avail : List String) (avoid : Bool) (c : String)
    (hc : c ∈ poolOf m avail avoid) : c ∈ leastUsedOf m avail := by
  unfold poolOf at hc
  split at hc
  · exact hc
  · split at hc
    · exact (List.mem_filter.mp hc).1
    · exact hc

theorem get?_mem : ∀ (l : List String) (n : Nat) (c : String), l.get? n = some c → c ∈ l := by
  intro l
  induction l with
  | nil => intro n c h; simp [List.get?] at h
  | cons x xs ih =>
      intro n c h
      cases n with
      | zero =>
          simp only [List.get?] at h
          rw [Option.some.injEq] at h
          rw [← h]
          exact List.mem_cons_self x xs
      | succ k => exact List.mem_cons_of_mem x (ih k c h)

theorem get?_mod_isSome (l : List String) (hne : l ≠ []) (pick : Nat) :
    ∃ c, l.get? (pick % l.length) = some c := by
  have hlen : 0 < l.length := List.length_pos.mpr hne
  have hlt : pick % l.length < l.length := Nat.mod_lt pick hlen
  exact ⟨l.get ⟨pick % l.length, hlt⟩, List.get?_eq_get hlt⟩

theorem pool_ne_nil_of_two (m : Meta) (avail : List String) (avoid : Bool) (c d : String)
    (hne : avail ≠ []) (hc : c ∈ avail) (hd : d ∈ avail) (hcd : c ≠ d)
    (hminc : ∀ e ∈ avail, total_for m c ≤ total_for m e)
    (hmind : ∀ e ∈ avail, total_for m d ≤ total_for m e) :
    poolOf m avail avoid ≠ [] := by
  obtain ⟨mt, hmt⟩ := minTotalOf_isSome m avail hne
  have hcl : c ∈ leastUsedOf m avail :=
    (mem_leastUsedOf m avail mt c hmt).mpr
      ⟨(mem_candidatesOf m avail c).mpr hc, total_for_eq_min m avail mt c hmt hc hminc⟩
  have hdl : d ∈ leastUsedOf m avail :=
    (mem_leastUsedOf m avail mt d hmt).mpr
      ⟨(mem_candidatesOf m avail d).mpr hd, total_for_eq_min m avail mt d hmt hd hmind⟩
  unfold poolOf
  split
  · exact leastUsedOf_ne_nil m avail mt hmt
  · split
    · intro hnil
      rename_i lc _ _
      by_cases hclc : c = lc
      · have hdlc : ¬ d = lc := fun h => hcd (hclc.trans h.symm)
        have hmem : d ∈ (leastUsedOf m avail).filter (fun e => decide (¬ e = lc)) :=
          List.mem_filter.mpr ⟨hdl, by simp [hdlc]⟩
        rw [hnil] at hmem
        exact (List.not_mem_nil d) hmem
      · have hmem : c ∈ (leastUsedOf m avail).filter (fun e => decide (¬ e = lc)) :=
          List.mem_filter.mpr ⟨hcl, by simp [hclc]⟩
        rw [hnil] at hmem
        exact (List.not_mem_nil c) hmem
    · exact leastUsedOf_ne_nil m avail mt hmt

theorem pool_ne_nil_of_last_above_min (m : Meta) (avail : List String) (avoid : Bool)
    (c : String) (hne : avail ≠ []) (hc : c ∈ avail)
    (hminc : ∀ e ∈ avail, total_for m c ≤ total_for m e)
    (hlast : ∀ lc, m.last_chapter_id = some lc → lc ∈ avail →
        total_for m c < total_for m lc) :
    poolOf m avail avoid ≠ [] := by
  obtain ⟨mt, hmt⟩ := minTotalOf_isSome m avail hne
  have hcl : c ∈ leastUsedOf m avail :=
    (mem_leastUsedOf m avail mt c hmt).mpr
      ⟨(mem_candidatesOf m avail c).mpr hc, total_for_eq_min m avail mt c hmt hc hminc⟩
  unfold poolOf
  split
  · exact leastUsedOf_ne_nil m avail mt hmt
  · rename_i lc hl
    split
    · rename_i hcond
      exfalso
      obtain ⟨_, hlc_lu, _⟩ := hcond
      obtain ⟨hlcc, hlct⟩ := (mem_leastUsedOf m avail mt lc hmt).mp hlc_lu
      have hlca : lc ∈ avail := (mem_candidatesOf m avail lc).mp hlcc
      have hct : total_for m c = mt := total_for_eq_min m avail mt c hmt hc hminc
      have hlt := hlast lc hl hlca
      omega
    · exact leastUsedOf_ne_nil m avail mt hmt

theorem choose_eq_of_pool_ne_nil (m : Meta) (avail : List String) (avoid : Bool) (pick : Nat)
    (hne : avail ≠ []) (hpool : poolOf m avail avoid ≠ []) :
    ∃ c, choose_next_chapter m avail avoid pick = some c ∧ c ∈ poolOf m avail avoid := by
  obtain ⟨mt, hmt⟩ := minTotalOf_isSome m avail hne
  obtain ⟨c, hcget⟩ := get?_mod_isSome (poolOf m avail avoid) hpool pick
  have hA : avail.isEmpty = false := by
    cases avail with
    | nil => exact absurd rfl hne
    | cons _ _ => rfl
  have hC : (candidatesOf m avail).isEmpty = false := by
    cases hcand : candidatesOf m avail with
    | nil => exact absurd hcand (candidatesOf_ne_nil m avail hne)
    | cons _ _ => rfl
  have hP : (poolOf m avail avoid).isEmpty = false := by
    cases hpl : poolOf m avail avoid with
    | nil => exact absurd hpl hpool
    | cons _ _ => rfl
  refine ⟨c, ?_, get?_mem _ _ _ hcget⟩
  unfold choose_next_chapter
  rw [hA, hC, hmt]
  simp only [Bool.false_eq_true, if_false, hP]
  exact hcget

theorem choose_sound (m : Meta) (avail : List String) (avoid : Bool) (pick : Nat) (c : String)
    (h : choose_next_chapter m avail avoid pick = some c) :
    c ∈ avail ∧ ∀ d ∈ avail, total_for m c ≤ total_for m d := by
  unfold choose_next_chapter at h
  split at h
  · simp at h
  · split at h
    · simp at h
    · split at h
      · simp at h
      · rename_i mt hmt
        split at h
        · simp at h
        · have hpool : c ∈ poolOf m avail avoid := get?_mem _ _ _ h
          have hlu : c ∈ leastUsedOf m avail := pool_subset m avail avoid c hpool
          obtain ⟨hcc, hct⟩ := (mem_leastUsedOf m avail mt c hmt).mp hlu
          refine ⟨(mem_candidatesOf m avail c).mp hcc, fun d hd => ?_⟩
          rw [hct]
          exact minTotalOf_le m avail mt hmt d hd

/-! ### Recording lemmas -/

theorem findStat_map_update (l : List (String × ChapterStat)) (ch : String) (s : Source)
    (x : String) :
    findStat (l.map (fun p => if p.1 = ch then (p.1, bumpStat p.2 s) else p)) x
      = if x = ch then (findStat l x).map (fun st => bumpStat st s) else findStat l x := by
  induction l with
  | nil => by_cases h : x = ch <;> simp [findStat, h]
  | cons p rest ih =>
      by_cases hp : p.1 = ch
      · by_cases hx : x = ch
        · have hpx : p.1 = x := by rw [hp, hx]
          simp [findStat, hp, hx, hpx]
        · have hpx : ¬ p.1 = x := fun hh => hx (by rw [← hh, hp])
          have hchx : ¬ ch = x := fun hh => hpx (by rw [hp, hh])
          simp [findStat, hp, hx, hpx, hchx, ih]
      · by_cases hpx : p.1 = x
        · have hx : ¬ x = ch := fun hh => hp (by rw [hpx, hh])
          simp [findStat, hp, hpx, hx]
        · simp [findStat, hp, hpx, ih]

theorem findStat_append_one (l : List (String × ChapterStat)) (ch x : String)
    (z : ChapterStat) :
    findStat (l ++ [(ch, z)]) x
      = match findStat l x with
        | some st => some st
        | none => if ch = x then some z else none := by
  induction l with
  | nil => simp [findStat]
  | cons p rest ih =>
      by_cases hp : p.1 = x <;> simp [findStat, hp, ih]

theorem record_usage_chapter_stats (m : Meta) (ch : String) (s : Source) :
    (record_usage m ch s).chapter_stats
      = ((match findStat m.chapter_stats ch with
          | some _ => m.chapter_stats
          | none => m.chapter_stats ++ [(ch, (⟨0, 0, 0⟩ : ChapterStat))]
            : List (String × ChapterStat))).map
          (fun p => if p.1 = ch then (p.1, bumpStat p.2 s) else p) := rfl

theorem total_for_record (m : Meta) (ch : String) (s : Source) (x : String) :
    total_for (record_usage m ch s) x
      = total_for m x + (if x = ch then 1 else 0) := by
  unfold total_for
  cases hfind : findStat m.chapter_stats ch with
  | some st =>
      have hstats : (record_usage m ch s).chapter_stats
          = m.chapter_stats.map (fun p => if p.1 = ch then (p.1, bumpStat p.2 s) else p) := by
        rw [record_usage_chapter_stats, hfind]
      rw [hstats, findStat_map_update]
      by_cases hx : x = ch
      · rw [if_pos hx, if_pos hx, hx, hfind]
        simp [bumpStat]
      · rw [if_neg hx, if_neg hx]
        omega
  | none =>
      have hstats : (record_usage m ch s).chapter_stats
          = (m.chapter_stats ++ [(ch, (⟨0, 0, 0⟩ : ChapterStat))]).map
              (fun p => if p.1 = ch then (p.1, bumpStat p.2 s) else p) := by
        rw [record_usage_chapter_stats, hfind]
      rw [hstats, findStat_map_update]
      by_cases hx : x = ch
      · rw [if_pos hx, if_pos hx, hx, findStat_append_one, hfind]
        simp [bumpStat]
      · rw [if_neg hx, if_neg hx, findStat_append_one]
        cases hfx : findStat m.chapter_stats x with
        | some st2 => simp
        | none =>
            have hch : ¬ ch = x := fun hh => hx hh.symm
            simp [hch]

theorem record_usage_last (m : Meta) (ch : String) (s : Source) :
    (record_usage m ch s).last_chapter_id = some ch := rfl

/-! ### Claim C4 -/

theorem poolOf_some (m : Meta) (avail : List String) (avoid : Bool) (lc : String)
    (hl : m.last_chapter_id = some lc) :
    poolOf m avail avoid
      = if avoid = true ∧ lc ∈ leastUsedOf m avail ∧ 1 < (leastUsedOf m avail).length
        then (leastUsedOf m avail).filter (fun c => decide (¬ c = lc))
        else leastUsedOf m avail := by
  unfold poolOf
  split
  · rename_i heq
    rw [hl] at heq
    exact Option.noConfusion heq
  · rename_i lc' heq
    rw [hl] at heq
    injection heq with h
    subst h
    rfl

theorem choose_mem_pool (m : Meta) (avail : List String) (avoid : Bool) (pick : Nat)
    (c : String) (h : choose_next_chapter m avail avoid pick = some c) :
    c ∈ poolOf m avail avoid := by
  unfold choose_next_chapter at h
  split at h
  · simp at h
  · split at h
    · simp at h
    · split at h
      · simp at h
      · split at h
        · simp at h
        · exact get?_mem _ _ _ h

theorem two_mem_one_lt_length (l : List String) (a b : String) (ha : a ∈ l) (hb : b ∈ l)
    (hab : a ≠ b) : 1 < l.length := by
  cases l with
  | nil => simp at ha
  | cons x xs =>
      cases xs with
      | nil =>
          simp only [List.mem_singleton] at ha hb
          exact absurd (ha.trans hb.symm) hab
      | cons y ys => simp [Nat.lt_add_one_iff]

theorem count_filter_of_pos (l : List String) (p : String → Bool) (a : String)
    (hp : p a = true) : (l.filter p).count a = l.count a := by
  induction l with
  | nil => rfl
  | cons x xs ih =>
      by_cases hx : x = a
      · subst hx
        simp [List.filter_cons, hp, List.count_cons, ih]
      · by_cases hpx : p x = true <;> simp [List.filter_cons, hpx, List.count_cons, hx, ih]

theorem eq_singleton_of_count (l : List String) (a : String) (hmem : a ∈ l)
    (hall : ∀ e ∈ l, e = a) (hcount : l.count a = 1) : l = [a] := by
  cases l with
  | nil => simp at hmem
  | cons x xs =>
      have hx : x = a := hall x (List.mem_cons_self x xs)
      subst hx
      have hcnt0 : xs.count x = 0 := by
        rw [List.count_cons_self] at hcount
        omega
      have hxs : xs = [] := by
        cases hxs2 : xs with
        | nil => rfl
        | cons y ys =>
            exfalso
            have hy : y = x := by
              apply hall
              rw [hxs2]
              exact List.mem_cons_of_mem x (List.mem_cons_self y ys)
            rw [hxs2, hy, List.count_cons_self] at hcnt0
            omega
      rw [hxs]

/-- Claim C4 (amended): with repeat-avoidance on and `last_chapter_id = lc`,
`choose_next_chapter` never returns `lc` when some other candidate shares
the minimum `total_questions`; and when `lc` is the unique least-used
candidate and occurs exactly once in the candidate list, it is returned.
(When duplicated syllabus labels make `lc` occur more than once among the
candidates, the least-used list has length above one, `lc` is filtered out,
and the chooser returns `None` instead — see the counterexample.) -/
theorem choose_avoids_last_amended (m : Meta) (avail : List String) (pick : Nat)
    (lc : String) (mt : Int)
    (hlast : m.last_chapter_id = some lc)
    (hmt : minTotalOf m avail = some mt) :
    ((∃ d, d ∈ candidatesOf m avail ∧ d ≠ lc ∧ total_for m d = mt) →
        choose_next_chapter m avail true pick ≠ some lc)
    ∧ ((lc ∈ candidatesOf m avail ∧ total_for m lc = mt
        ∧ (∀ d ∈ candidatesOf m avail, total_for m d = mt → d = lc)
        ∧ (candidatesOf m avail).count lc = 1
        ∧ avail ≠ []) →
        choose_next_chapter m avail true pick = some lc) := by
  constructor
  · rintro ⟨d, hdc, hdlc, hdt⟩ heq
    have hpool : lc ∈ poolOf m avail true := choose_mem_pool m avail true pick lc heq
    have hlu : lc ∈ leastUsedOf m avail := pool_subset m avail true lc hpool
    have hdlu : d ∈ leastUsedOf m avail :=
      (mem_leastUsedOf m avail mt d hmt).mpr ⟨hdc, hdt⟩
    have hlen : 1 < (leastUsedOf m avail).length :=
      two_mem_one_lt_length _ d lc hdlu hlu hdlc
    have hcond : (true : Bool) = true ∧ lc ∈ leastUsedOf m avail
        ∧ 1 < (leastUsedOf m avail).length := ⟨rfl, hlu, hlen⟩
    rw [poolOf_some m avail true lc hlast, if_pos hcond] at hpool
    have := (List.mem_filter.mp hpool).2
    simp at this
  · rintro ⟨hlcc, hlct, huniq, hcount, hne⟩
    have hall : ∀ e ∈ leastUsedOf m avail, e = lc := by
      intro e he
      obtain ⟨hec, het⟩ := (mem_leastUsedOf m avail mt e hmt).mp he
      exact huniq e hec het
    have hlclu : lc ∈ leastUsedOf m avail :=
      (mem_leastUsedOf m avail mt lc hmt).mpr ⟨hlcc, hlct⟩
    have hcnt : (leastUsedOf m avail).count lc = 1 := by
      unfold leastUsedOf
      rw [hmt, count_filter_of_pos _ _ _ (by simp [hlct]), hcount]
    have hsingle : leastUsedOf m avail = [lc] :=
      eq_singleton_of_count _ lc hlclu hall hcnt
    have hpool_eq : poolOf m avail true = [lc] := by
      rw [poolOf_some m avail true lc hlast, hsingle]
      have hnot : ¬((true : Bool) = true ∧ lc ∈ [lc] ∧ 1 < ([lc] : List String).length) := by
        simp
      rw [if_neg hnot]
    obtain ⟨c, hc, hcp⟩ := choose_eq_of_pool_ne_nil m avail true pick hne
      (by rw [hpool_eq]; simp)
    rw [hpool_eq] at hcp
    simp only [List.mem_singleton] at hcp
    rw [hcp] at hc
    exact hc

/-- Chapter label used in concrete examples. -/
def sA : String := "A"

/-- Chapter label used in concrete examples. -/
def sB : String := "B"

/-- Group label used in concrete examples. -/
def sG : String := "G"

/-- A concrete ledger with syllabus subchapters `A`, `B`, empty statistics
and `last_chapter_id = A`. -/
def metaTwoChapters : Meta :=
  { version := 1
  , created_at := tsW
  , updated_at := tsW
  , usage := ⟨0, 0, 0⟩
  , quota_estimate := defaultQuotaEstimate
  , chapter_stats := []
  , last_chapter_id := some sA
  , chapters := [⟨some sG, [⟨some sA⟩, ⟨some sB⟩]⟩] }

/-- Like `metaTwoChapters`, but chapter `B` has already been drawn five
times, so `A` is the unique least-used chapter. -/
def metaLastUnique : Meta :=
  { metaTwoChapters with chapter_stats := [(sB, ⟨5, 5, 0⟩)] }

/-- A concrete ledger whose syllabus holds two subchapters that share the
label `A` — the duplicate-label corner the chooser mishandles. -/
def metaDupLabel : Meta :=
  { metaTwoChapters with chapters := [⟨some sG, [⟨some sA⟩, ⟨some sA⟩]⟩] }

/-- Witness for the amended C4: with two equally-unused chapters the last
chapter `A` is never chosen, and when `A` is the unique least-used
candidate (with a single candidate occurrence) it is chosen. -/
theorem choose_avoids_last_witness :
    choose_next_chapter metaTwoChapters [sA, sB] true 0 ≠ some sA
    ∧ choose_next_chapter metaLastUnique [sA, sB] true 0 = some sA :=
  ⟨(choose_avoids_last_amended metaTwoChapters [sA, sB] 0 sA 0 rfl (by decide)).1
      ⟨sB, by decide, by decide, by decide⟩,
   (choose_avoids_last_amended metaLastUnique [sA, sB] 0 sA 0 rfl (by decide)).2
      ⟨by decide, by decide, by decide, by decide, by decide⟩⟩

/-- Counterexample to Claim C4 as stated: in `metaDupLabel` the topic `A`
is the unique least-used candidate topic (every candidate achieving the
minimum equals `A`), yet with repeat-avoidance on the chooser returns
`None` — `A` is not eligible to be returned, because the duplicated
syllabus label makes the least-used list `[A, A]`, whose length exceeds
one, so every copy of `A` is filtered out. -/
theorem choose_avoids_last_counterexample :
    metaDupLabel.last_chapter_id = some sA
    ∧ candidatesOf metaDupLabel [sA] = [sA, sA]
    ∧ minTotalOf metaDupLabel [sA] = some 0
    ∧ (∀ d ∈ candidatesOf metaDupLabel [sA], total_for metaDupLabel d = 0 → d = sA)
    ∧ choose_next_chapter metaDupLabel [sA] true 0 = none := by
  refine ⟨rfl, by decide, by decide, by decide, by decide⟩

/-! ### Claim C5 -/

theorem exists_not_mem_of_length_lt (avail visited : List String) (hnd : avail.Nodup)
    (hvnd : visited.Nodup) (_hsub : ∀ v ∈ visited, v ∈ avail)
    (hlt : visited.length < avail.length) : ∃ c, c ∈ avail ∧ c ∉ visited := by
  by_contra hcon
  push_neg at hcon
  have hsubset : avail.toFinset ⊆ visited.toFinset := by
    intro a ha
    rw [List.mem_toFinset] at ha
    rw [List.mem_toFinset]
    exact hcon a ha
  have h1 : avail.toFinset.card = avail.length := List.toFinset_card_of_nodup hnd
  have h2 : visited.toFinset.card = visited.length := List.toFinset_card_of_nodup hvnd
  have h3 : avail.toFinset.card ≤ visited.toFinset.card := Finset.card_le_card hsubset
  omega

theorem exists_two_distinct (avail : List String) (hnd : avail.Nodup)
    (h2 : 2 ≤ avail.length) : ∃ a b, a ∈ avail ∧ b ∈ avail ∧ a ≠ b := by
  cases avail with
  | nil => simp at h2
  | cons a rest =>
      cases rest with
      | nil => simp at h2
      | cons b rest2 =>
          refine ⟨a, b, List.mem_cons_self a (b :: rest2),
            List.mem_cons_of_mem a (List.mem_cons_self b rest2), ?_⟩
          have hna := (List.nodup_cons.mp hnd).1
          intro hab
          exact hna (hab ▸ List.mem_cons_self b rest2)

theorem runQuiz_spec (avail : List String) (k : Int) (hnd : avail.Nodup)
    (h2 : 2 ≤ avail.length) :
    ∀ (turns : List (Nat × Source)) (m : Meta) (visited : List String),
      visited.Nodup →
      (∀ v ∈ visited, v ∈ avail) →
      (∀ c ∈ avail, total_for m c = if c ∈ visited then k + 1 else k) →
      (visited = [] ∨ ∃ v ∈ visited, m.last_chapter_id = some v) →
      visited.length + turns.length ≤ avail.length →
      (runQuiz avail m turns).2.length = turns.length
      ∧ (visited ++ (runQuiz avail m turns).2).Nodup
      ∧ (∀ c ∈ (runQuiz avail m turns).2, c ∈ avail) := by
  intro turns
  induction turns with
  | nil =>
      intro m visited hvnd hvsub _ _ _
      exact ⟨rfl, by simpa [runQuiz] using hvnd, by simp [runQuiz]⟩
  | cons t rest ih =>
      obtain ⟨pick, source⟩ := t
      intro m visited hvnd hvsub hcounts hlast hlen
      have hvlt : visited.length < avail.length := by
        simp only [List.length_cons] at hlen
        omega
      obtain ⟨c0, hc0a, hc0nv⟩ :=
        exists_not_mem_of_length_lt avail visited hnd hvnd hvsub hvlt
      have hc0k : total_for m c0 = k := by
        have h := hcounts c0 hc0a
        rw [if_neg hc0nv] at h
        exact h
      have hc0min : ∀ e ∈ avail, total_for m c0 ≤ total_for m e := by
        intro e he
        have h := hcounts e he
        by_cases hev : e ∈ visited
        · rw [if_pos hev] at h
          omega
        · rw [if_neg hev] at h
          omega
      have hane : avail ≠ [] := by
        intro h
        rw [h] at h2
        simp at h2
      have hpool : poolOf m avail true ≠ [] := by
        rcases hlast with hvnil | ⟨v, hv, hlastv⟩
        · obtain ⟨a, b, haa, hba, hab⟩ := exists_two_distinct avail hnd h2
          have hmina : ∀ e ∈ avail, total_for m a ≤ total_for m e := by
            intro e he
            have h1 := hcounts a haa
            have h2e := hcounts e he
            rw [hvnil] at h1 h2e
            simp only [List.not_mem_nil, if_false] at h1 h2e
            omega
          have hminb : ∀ e ∈ avail, total_for m b ≤ total_for m e := by
            intro e he
            have h1 := hcounts b hba
            have h2e := hcounts e he
            rw [hvnil] at h1 h2e
            simp only [List.not_mem_nil, if_false] at h1 h2e
            omega
          exact pool_ne_nil_of_two m avail true a b hane haa hba hab hmina hminb
        · apply pool_ne_nil_of_last_above_min m avail true c0 hane hc0a hc0min
          intro lc hlc hlca
          rw [hlastv] at hlc
          injection hlc with hlc'
          subst hlc'
          have hvk : total_for m v = k + 1 := by
            have h := hcounts v (hvsub v hv)
            rw [if_pos hv] at h
            exact h
          omega
      obtain ⟨x, hx, hxp⟩ := choose_eq_of_pool_ne_nil m avail true pick hane hpool
      obtain ⟨hxa, hxmin⟩ := choose_sound m avail true pick x hx
      have hxnv : x ∉ visited := by
        intro hxv
        have hxc := hcounts x hxa
        rw [if_pos hxv] at hxc
        have h1 := hxmin c0 hc0a
        rw [hc0k] at h1
        omega
      have hxk : total_for m x = k := by
        have hxc := hcounts x hxa
        rw [if_neg hxnv] at hxc
        exact hxc
      have hvnd' : (visited ++ [x]).Nodup := by
        rw [List.nodup_append]
        refine ⟨hvnd, List.nodup_singleton x, ?_⟩
        intro a ha hax
        simp only [List.mem_singleton] at hax
        rw [hax] at ha
        exact hxnv ha
      have hvsub' : ∀ v ∈ visited ++ [x], v ∈ avail := by
        intro v hv
        rcases List.mem_append.mp hv with hvl | hvr
        · exact hvsub v hvl
        · simp only [List.mem_singleton] at hvr
          rw [hvr]
          exact hxa
      have hcounts' : ∀ c ∈ avail, total_for (record_usage m x source) c
          = if c ∈ visited ++ [x] then k + 1 else k := by
        intro c hca
        rw [total_for_record]
        by_cases hcx : c = x
        · subst hcx
          rw [if_pos rfl]
          have hmem : c ∈ visited ++ [c] := List.mem_append.mpr (Or.inr (List.mem_singleton.mpr rfl))
          rw [if_pos hmem, hxk]
        · rw [if_neg hcx]
          have hmemiff : (c ∈ visited ++ [x]) ↔ c ∈ visited := by
            simp [List.mem_append, hcx]
          have hc := hcounts c hca
          by_cases hcv : c ∈ visited
          · rw [if_pos (hmemiff.mpr hcv)]
            rw [if_pos hcv] at hc
            omega
          · rw [if_neg (fun hh => hcv (hmemiff.mp hh))]
            rw [if_neg hcv] at hc
            omega
      have hlast' : (visited ++ [x]) = [] ∨
          ∃ v ∈ visited ++ [x], (record_usage m x source).last_chapter_id = some v := by
        refine Or.inr ⟨x, List.mem_append.mpr (Or.inr (List.mem_singleton.mpr rfl)), ?_⟩
        exact record_usage_last m x source
      have hlen' : (visited ++ [x]).length + rest.length ≤ avail.length := by
        simp only [List.length_append, List.length_singleton]
        simp only [List.length_cons] at hlen
        omega
      have hstep := ih (record_usage m x source) (visited ++ [x])
        hvnd' hvsub' hcounts' hlast' hlen'
      have hrun : runQuiz avail m ((pick, source) :: rest)
          = ((runQuiz avail (record_usage m x source) rest).1,
             x :: (runQuiz avail (record_usage m x source) rest).2) := by
        simp [runQuiz, hx]
      rw [hrun]
      refine ⟨by simp [hstep.1], ?_, ?_⟩
      · have hassoc : visited ++ x :: (runQuiz avail (record_usage m x source) rest).2
            = (visited ++ [x]) ++ (runQuiz avail (record_usage m x source) rest).2 := by
          simp
        rw [hassoc]
        exact hstep.2.1
      · intro c hc
        rcases List.mem_cons.mp hc with hcx | hcr
        · rw [hcx]
          exact hxa
        · exact hstep.2.2 c hcr

/-- Claim C5: for every duplicate-free set of at least two available
chapters whose recorded `total_questions` are all equal, over a sequence of
as many turns as there are chapters — each turn choosing via
`choose_next_chapter` (repeat-avoidance on, arbitrary random picks) and
recording the chosen chapter via `record_usage` (arbitrary sources) — every
chapter is chosen exactly once: the chosen list has no duplicates, has one
entry per turn, and covers every available chapter.  Hence each chapter is
visited once before any chapter is visited twice. -/
theorem round_robin_fairness (m0 : Meta) (avail : List String) (k : Int)
    (turns : List (Nat × Source))
    (hnd : avail.Nodup) (h2 : 2 ≤ avail.length)
    (hk : ∀ c ∈ avail, total_for m0 c = k)
    (hturns : turns.length = avail.length) :
    (runQuiz avail m0 turns).2.Nodup
    ∧ (runQuiz avail m0 turns).2.length = avail.length
    ∧ (∀ c ∈ avail, c ∈ (runQuiz avail m0 turns).2) := by
  have hcounts0 : ∀ c ∈ avail, total_for m0 c = if c ∈ ([] : List String) then k + 1 else k := by
    intro c hc
    simpa using hk c hc
  have hspec := runQuiz_spec avail k hnd h2 turns m0 []
    List.nodup_nil (by simp) hcounts0 (Or.inl rfl) (by simp [hturns])
  obtain ⟨hlen, hnodup, hsub⟩ := hspec
  have hnodup' : (runQuiz avail m0 turns).2.Nodup := by simpa using hnodup
  refine ⟨hnodup', by rw [hlen, hturns], ?_⟩
  have hsubF : (runQuiz avail m0 turns).2.toFinset ⊆ avail.toFinset := by
    intro a ha
    rw [List.mem_toFinset] at ha
    rw [List.mem_toFinset]
    exact hsub a ha
  have hcard1 : (runQuiz avail m0 turns).2.toFinset.card = (runQuiz avail m0 turns).2.length :=
    List.toFinset_card_of_nodup hnodup'
  have hcard2 : avail.toFinset.card = avail.length := List.toFinset_card_of_nodup hnd
  have heq : (runQuiz avail m0 turns).2.toFinset = avail.toFinset :=
    Finset.eq_of_subset_of_card_le hsubF (by omega)
  intro c hc
  have hcf : c ∈ avail.toFinset := List.mem_toFinset.mpr hc
  rw [← heq] at hcf
  exact List.mem_toFinset.mp hcf

/-- A concrete ledger with syllabus subchapters `A`, `B`, empty statistics
and no last chapter. -/
def metaFreshTwo : Meta :=
  { metaTwoChapters with last_chapter_id := none }

/-- Witness for C5: two fresh chapters `A`, `B` with equal (zero) counts
are each chosen exactly once over two turns. -/
theorem round_robin_fairness_witness :
    (runQuiz [sA, sB] metaFreshTwo [(0, Source.online), (0, Source.offline)]).2.Nodup
    ∧ (runQuiz [sA, sB] metaFreshTwo
        [(0, Source.online), (0, Source.offline)]).2.length = 2
    ∧ (∀ c ∈ [sA, sB], c ∈ (runQuiz [sA, sB] metaFreshTwo
        [(0, Source.online), (0, Source.offline)]).2) :=
  round_robin_fairness metaFreshTwo [sA, sB] 0
    [(0, Source.online), (0, Source.offline)]
    (by decide) (by decide) (by decide) (by decide)

/-!
## Online question generation — `app.py`

`generate_online_question` gates on `can_use_online`, picks one model via
`choose_model_with_fallback`, issues one generation request, classifies an
exception as rate-limit (a `429` / `Resource exhausted` marker in the
message) or other error, and otherwise records the approximate cost and
validates the parsed payload.  The prompt string built by
`build_online_prompt` only matters downstream through its length, passed
here as `prompt_len`; the two clock reads are the explicit arguments
`created_at` and `now_iso`.
-/

/-- The substring marker `429` tested by the exception classifier. -/
def s429 : String := "429"

/-- The substring marker `Resource exhausted` tested by the classifier. -/
def sResourceExhausted : String := "Resource exhausted"

/-- The default `difficulty` installed when the payload omits it. -/
def sStandard : String := "standard"

/-- The `id` prefix of runtime online questions. -/
def sQOnlinePre : String := "Q_ONLINE_"

/-- The `source` tag of runtime online questions. -/
def sOnlineRuntime : String := "online_runtime"

/-- The fixed `domain` tag of runtime online questions. -/
def sDomainTech : String := "技術分野"

/-- The fixed `syllabus` tag of runtime online questions. -/
def sSyllabusV : String := "G2024_v1.3"

/-- The default chapter-group label of the syllabus scan. -/
def sDLDefault : String := "ディープラーニング"

/-- Substring search over character lists (Python's `pat in s`). -/
def hasSubstring (pat : List Char) : List Char → Bool
  | [] => pat.isEmpty
  | c :: rest => pat.isPrefixOf (c :: rest) || hasSubstring pat rest

/-- Python's `pat in s` on strings. -/
def containsSub (s pat : String) : Bool := hasSubstring pat.data s.data

/-- Python's `str.strip()`: drop whitespace from both ends. -/
def pyStrip (s : String) : String :=
  String.mk (((s.data.dropWhile Char.isWhitespace).reverse.dropWhile Char.isWhitespace).reverse)

/-- The `Question` dataclass of `gtest_quiz/models.py`. -/
structure Question where
  id : String
  source : String
  created_at : String
  domain : String
  chapter_group : String
  chapter_id : String
  difficulty : String
  question : String
  choices : List String
  correct_index : Int
  explanation : String
  syllabus : String
deriving DecidableEq

/-- `choose_model_with_fallback` (app.py lines 173-191): the preferred
model when it is available, else the first available model, and `None`
when the library is missing or no model is available. -/
def choose_model_with_fallback (env : AppEnv) : Option String :=
  if env.hasGemini = false then none
  else if env.availableModels.isEmpty then none
  else
    match env.preferredModel with
    | some p => if p ∈ env.availableModels then some p else env.availableModels.head?
    | none => env.availableModels.head?

/-- The syllabus scan of app.py lines 276-284: the label of a group holding
a subchapter labelled `chapter_label` (later groups override earlier ones,
as the source's `break` only leaves the inner loop), defaulting to
`ディープラーニング`. -/
def inferChapterGroup (m : Meta) (chapter_label : String) : String :=
  m.chapters.foldl
    (fun acc g =>
      if g.subchapters.any (fun sv => decide (sv.label = some chapter_label))
      then g.label.getD acc
      else acc)
    sDLDefault

/-- `generate_online_question` (app.py lines 258-331). -/
def generate_online_question (env : AppEnv) (m : Meta) (chapter_label : String)
    (prompt_len : Nat) (created_at now_iso : String) (q : QuotaState) :
    Option Question × QuotaState :=
  if can_use_online env q = false then (none, q)
  else
    match choose_model_with_fallback env with
    | none => (none, q)
    | some model_name =>
        match env.genOutcome model_name with
        | GenOutcome.exn msg =>
            if (containsSub msg s429 || containsSub msg sResourceExhausted) = true
            then (none, register_429 now_iso (some msg) q)
            else (none, register_error msg q)
        | GenOutcome.ok text data =>
            let q1 := add_usage ((prompt_len / 2 + text.length / 2 : Nat) : Int) q
            let jq_question := pyStrip (data.question.getD emptyStr)
            let jq_choices := data.choices.getD []
            let jq_correct_index := data.correct_index.getD 0
            let jq_explanation := pyStrip (data.explanation.getD emptyStr)
            let jq_difficulty := data.difficulty.getD sStandard
            if jq_question = emptyStr ∨ jq_choices.length ≠ 4
            then (none, q1)
            else
              (some { id := sQOnlinePre ++ created_at
                    , source := sOnlineRuntime
                    , created_at := created_at
                    , domain := sDomainTech
                    , chapter_group := inferChapterGroup m chapter_label
                    , chapter_id := chapter_label
                    , difficulty := jq_difficulty
                    , question := jq_question
                    , choices := jq_choices
                    , correct_index := jq_correct_index
                    , explanation := jq_explanation
                    , syllabus := sSyllabusV }, q1)

/-! ### Claim C7 -/

/-- Claim C7 (amended): under the remote-attempt preconditions (gate open,
a model selected, response parsed), `generate_online_question` returns a
`Question` if and only if the parsed payload has non-empty (stripped)
question text and exactly four answer options — the correct-option index
and the explanation are not validated — and the approximate cost
`len(prompt)//2 + len(text)//2` is recorded via `add_usage` whenever the
response parses, success or not. -/
theorem online_success_shape_amended (env : AppEnv) (m : Meta) (chapter_label : String)
    (prompt_len : Nat) (created_at now_iso : String) (q : QuotaState)
    (mn text : String) (data : GenData)
    (hcan : can_use_online env q = true)
    (hmodel : choose_model_with_fallback env = some mn)
    (hout : env.genOutcome mn = GenOutcome.ok text data) :
    ((generate_online_question env m chapter_label prompt_len created_at now_iso q).1.isSome
        = true
      ↔ (pyStrip (data.question.getD emptyStr) ≠ emptyStr
          ∧ (data.choices.getD []).length = 4))
    ∧ (generate_online_question env m chapter_label prompt_len created_at now_iso q).2
        = add_usage ((prompt_len / 2 + text.length / 2 : Nat) : Int) q := by
  by_cases hval : pyStrip (data.question.getD emptyStr) = emptyStr
      ∨ (data.choices.getD []).length ≠ 4
  · constructor
    · simp [generate_online_question, hcan, hmodel, hout, hval]
      tauto
    · simp [generate_online_question, hcan, hmodel, hout, hval]
  · constructor
    · simp [generate_online_question, hcan, hmodel, hout, hval]
      tauto
    · simp [generate_online_question, hcan, hmodel, hout, hval]

/-- Sample raw response text. -/
def sTxt : String := "RAW"

/-- Sample question text. -/
def sQ1 : String := "Q1"

/-- Sample explanation text. -/
def sExp : String := "E"

/-- Sample model name. -/
def sMA : String := "models-a"

/-- Sample model name. -/
def sMB : String := "models-b"

/-- A parsed payload with the full required shape: non-empty question,
four options, in-range index, non-empty explanation. -/
def dataGood : GenData :=
  { question := some sQ1
  , choices := some [sA, sB, sG, sExp]
  , correct_index := some 1
  , explanation := some sExp
  , difficulty := none }

/-- A parsed payload with non-empty question and four options but an
out-of-range correct index (9) and an empty explanation. -/
def dataBadIndex : GenData :=
  { question := some sQ1
  , choices := some [sA, sB, sG, sExp]
  , correct_index := some 9
  , explanation := some emptyStr
  , difficulty := none }

/-- A configured environment whose single model always yields `dataGood`. -/
def envOk : AppEnv :=
  { hasGemini := true
  , apiKeyPresent := true
  , cfgNearLimitRatio := none
  , availableModels := [sMA]
  , preferredModel := none
  , genOutcome := fun _ => GenOutcome.ok sTxt dataGood }

/-- A configured environment whose single model always yields
`dataBadIndex`. -/
def envBadIndex : AppEnv :=
  { envOk with genOutcome := fun _ => GenOutcome.ok sTxt dataBadIndex }

/-- Witness for the amended C7 at a concrete well-shaped payload. -/
theorem online_success_shape_witness :
    ((generate_online_question envOk metaFreshTwo sA 100 tsW tsW
        defaultQuotaEstimate).1.isSome = true
      ↔ (pyStrip (dataGood.question.getD emptyStr) ≠ emptyStr
          ∧ (dataGood.choices.getD []).length = 4))
    ∧ (generate_online_question envOk metaFreshTwo sA 100 tsW tsW
        defaultQuotaEstimate).2
        = add_usage ((100 / 2 + sTxt.length / 2 : Nat) : Int) defaultQuotaEstimate :=
  online_success_shape_amended envOk metaFreshTwo sA 100 tsW tsW defaultQuotaEstimate
    sMA sTxt dataGood (by decide) (by decide) rfl

/-- Counterexample to Claim C7 as stated: a response whose payload has an
out-of-range correct-option index (9 with four options) and an empty
rationale is still classified a success — `generate_online_question`
returns a `Question` carrying that index and empty explanation. -/
theorem online_success_shape_counterexample :
    (generate_online_question envBadIndex metaFreshTwo sA 100 tsW tsW
        defaultQuotaEstimate).1.isSome = true
    ∧ ((generate_online_question envBadIndex metaFreshTwo sA 100 tsW tsW
        defaultQuotaEstimate).1.map (fun qq => qq.correct_index)) = some 9
    ∧ ((generate_online_question envBadIndex metaFreshTwo sA 100 tsW tsW
        defaultQuotaEstimate).1.map (fun qq => qq.choices.length)) = some 4
    ∧ ((generate_online_question envBadIndex metaFreshTwo sA 100 tsW tsW
        defaultQuotaEstimate).1.map (fun qq => qq.explanation)) = some emptyStr := by
  refine ⟨rfl, rfl, rfl, rfl⟩

/-! ### Claim C8 -/

/-- Claim C8 (amended): within one quiz turn, a remote failure that is not
a rate-limit signal makes `generate_online_question` call `register_error`
and return `None` immediately — only the one model selected by
`choose_model_with_fallback` is ever attempted, no further remote candidate
is tried, and the `None` makes the caller (`load_new_question`) fall back
to the local corpus. -/
theorem failover_next_candidate_amended (env : AppEnv) (m : Meta) (chapter_label : String)
    (prompt_len : Nat) (created_at now_iso : String) (q : QuotaState)
    (mn msg : String)
    (hcan : can_use_online env q = true)
    (hmodel : choose_model_with_fallback env = some mn)
    (hout : env.genOutcome mn = GenOutcome.exn msg)
    (h429 : (containsSub msg s429 || containsSub msg sResourceExhausted) = false) :
    generate_online_question env m chapter_label prompt_len created_at now_iso q
      = (none, register_error msg q) := by
  simp [generate_online_question, hcan, hmodel, hout, h429]

/-- The diagnostic message of the transient failure in the concrete
failover scenario. -/
def sBoom : String := "boom"

/-- A configured environment with the ranked candidate list `[models-a,
models-b]` and preferred model `models-a`: model `models-a` raises a
transient (non-429) error while model `models-b` would return a
well-shaped question. -/
def envFailover : AppEnv :=
  { hasGemini := true
  , apiKeyPresent := true
  , cfgNearLimitRatio := none
  , availableModels := [sMA, sMB]
  , preferredModel := some sMA
  , genOutcome := fun nm => if nm = sMA then GenOutcome.exn sBoom
      else GenOutcome.ok sTxt dataGood }

/-- The same environment with the second candidate preferred, showing that
candidate `models-b` would have produced a question. -/
def envFailoverB : AppEnv :=
  { envFailover with preferredModel := some sMB }

/-- Witness for the amended C8 at the concrete failover scenario. -/
theorem failover_next_candidate_witness :
    generate_online_question envFailover metaFreshTwo sA 100 tsW tsW defaultQuotaEstimate
      = (none, register_error sBoom defaultQuotaEstimate) :=
  failover_next_candidate_amended envFailover metaFreshTwo sA 100 tsW tsW
    defaultQuotaEstimate sMA sBoom (by decide) (by decide) rfl (by decide)

/-- Counterexample to Claim C8 as stated: with candidates `[models-a,
models-b]`, the selected `models-a` failing transiently and `models-b`
available and returning a valid question, the turn's remote attempt still
yields `None` with only the error recorded — the next candidate is never
attempted (the very same environment with `models-b` selected does produce
a question). -/
theorem failover_next_candidate_counterexample :
    choose_model_with_fallback envFailover = some sMA
    ∧ (generate_online_question envFailover metaFreshTwo sA 100 tsW tsW
        defaultQuotaEstimate).1 = none
    ∧ (generate_online_question envFailover metaFreshTwo sA 100 tsW tsW
        defaultQuotaEstimate).2.last_error = some sBoom
    ∧ sMB ∈ envFailover.availableModels
    ∧ (generate_online_question envFailoverB metaFreshTwo sA 100 tsW tsW
        defaultQuotaEstimate).1.isSome = true := by
  refine ⟨by decide, by decide, by decide, by decide, by decide⟩
